import Mathlib

/-!
Verification of the field codec and task-list logic of the `todays-task-app`
repository (`src/lib/encryption.ts`, `src/components/TaskList.tsx`,
`src/components/TaskItem.tsx`).

The repository's `encryptData`/`decryptData` wrap `CryptoJS.AES` in passphrase
mode.  CryptoJS is an external library, so the cipher primitive is modelled
from the spec (a salted, passphrase-keyed, invertible byte transformation
producing a self-contained textual encoding with the salt embedded; a wrong
passphrase yields garbage or a decode failure; fresh salt on each call is
modelled by an explicit `salt` argument standing for the randomness drawn
inside the primitive).  The wrapper logic (catch-all error handling, the
empty-string heuristic, JSON plumbing, per-record isolation, sorting,
status toggling) is translated from the TypeScript source.
-/

/-- Little-endian base-10 digits of `n`, with explicit fuel (the fuel is
structurally consumed, the recursion actually stops after `log10 n` steps). -/
def natDigitsAux : Nat → Nat → List Nat
  | 0, _ => []
  | fuel + 1, n => if n = 0 then [] else n % 10 :: natDigitsAux fuel (n / 10)

/-- Little-endian base-10 digits of `n` (empty for 0). -/
def natDigits (n : Nat) : List Nat := natDigitsAux n n

/-- Value of a little-endian digit list in base `b`. -/
def ofDigitsB (b : Nat) : List Nat → Nat
  | [] => 0
  | d :: ds => d + b * ofDigitsB b ds

/-- Is `c` a decimal digit character. -/
def isDig (c : Char) : Bool := decide (48 ≤ c.toNat) && decide (c.toNat ≤ 57)

/-- Numeric value of a digit character. -/
def digVal (c : Char) : Nat := c.toNat - 48

/-- Digit character of a value `d < 10`. -/
def digChr (d : Nat) : Char := Char.ofNat (48 + d)

/-- The separator character terminating each number in the textual encoding. -/
def semiCh : Char := ';'

/-- A number rendered as little-endian digits followed by the separator. -/
def encNat (n : Nat) : List Char := (natDigits n).map digChr ++ [semiCh]

/-- Parse a digit run terminated by the separator; return the value and the rest. -/
def parseNat (l : List Char) : Option (Nat × List Char) :=
  match l.dropWhile isDig with
  | c :: rest =>
    if c = semiCh then some (ofDigitsB 10 ((l.takeWhile isDig).map digVal), rest)
    else none
  | [] => none

/-- Concatenation of separator-terminated numbers. -/
def encBody : List Nat → List Char
  | [] => []
  | n :: ns => encNat n ++ encBody ns

/-- Parse a whole list of separator-terminated numbers (fuel-bounded). -/
def parseBody : Nat → List Char → Option (List Nat)
  | _, [] => some []
  | 0, _ :: _ => none
  | fuel + 1, c :: cs =>
    match parseNat (c :: cs) with
    | some (n, rest) => (parseBody fuel rest).map (n :: ·)
    | none => none

/-- The fixed marker beginning every ciphertext (mirrors the base64 prefix that
CryptoJS's salted format always produces). -/
def markerChars : List Char := ['U', '2', 'F', 's', 'd', 'G', 'V', 'k', 'X', '1']

/-- Strip an expected leading run of characters, or fail. -/
def stripHead : List Char → List Char → Option (List Char)
  | [], rest => some rest
  | _ :: _, [] => none
  | p :: ps, c :: cs => if c = p then stripHead ps cs else none

/-- Render a (salt, body) pair as the self-contained ciphertext character list. -/
def printCipher (salt : Nat) (body : List Nat) : List Char :=
  markerChars ++ encNat salt ++ encBody body

/-- Parse the ciphertext character list back to (salt, body), or fail. -/
def parseCipher (l : List Char) : Option (Nat × List Nat) :=
  match stripHead markerChars l with
  | some r1 =>
    match parseNat r1 with
    | some (salt, r2) =>
      match parseBody r2.length r2 with
      | some body => some (salt, body)
      | none => none
    | none => none
  | none => none

/-- The three-byte little-endian encoding of one character's code point
(models the UTF-8 byte serialization step of the primitive). -/
def charEnc (c : Char) : List Nat :=
  [c.toNat % 256, c.toNat / 256 % 256, c.toNat / 65536]

/-- Byte serialization of a character list. -/
def strEnc : List Char → List Nat
  | [] => []
  | c :: cs => charEnc c ++ strEnc cs

/-- Decode one three-byte group back into a character; fails on out-of-range
bytes or an invalid code point (models a UTF-8 decode failure). -/
def triDec (b0 b1 b2 : Nat) : Option Char :=
  if b0 < 256 ∧ b1 < 256 ∧ b2 < 256 ∧ Nat.isValidChar (b0 + 256 * b1 + 65536 * b2)
  then some (Char.ofNat (b0 + 256 * b1 + 65536 * b2)) else none

/-- Decode a byte list back into characters; fails when the length is not a
multiple of three or any group is invalid. -/
def strDec : List Nat → Option (List Char)
  | [] => some []
  | b0 :: b1 :: b2 :: rest =>
    match triDec b0 b1 b2, strDec rest with
    | some c, some cs => some (c :: cs)
    | _, _ => none
  | _ => none

/-- Modelled from the spec: the key material CryptoJS derives from the
passphrase (EVP_BytesToKey over the passphrase).  Modelled as an injective
numeric encoding of the passphrase's characters, so that different
passphrases always derive different key material. -/
def passCode : List Char → Nat
  | [] => 0
  | c :: cs => c.toNat + 1 + 1114113 * passCode cs

/-- Modelled from the spec: keystream value at position `i` for a given
passphrase and salt.  Strictly monotone in the passphrase code, so a wrong
passphrase perturbs every position. -/
def keyAt (email : String) (salt i : Nat) : Nat :=
  (passCode email.data + 1) * (salt + i + 1)

/-- Modelled from the spec: the encrypting byte transformation of the
primitive (keystream addition). -/
def encBytes (email : String) (salt : Nat) : List Nat → Nat → List Nat
  | [], _ => []
  | b :: bs, i => (b + keyAt email salt i) :: encBytes email salt bs (i + 1)

/-- Modelled from the spec: the decrypting byte transformation of the
primitive (keystream subtraction, failing on underflow). -/
def decBytes (email : String) (salt : Nat) : List Nat → Nat → Option (List Nat)
  | [], _ => some []
  | b :: bs, i =>
    if keyAt email salt i ≤ b then
      (decBytes email salt bs (i + 1)).map (fun ds => (b - keyAt email salt i) :: ds)
    else none

/-- The error taxonomy of the codec: the source raises
`Error('Failed to encrypt data')` / `Error('Failed to decrypt data')`, and
lets `JSON.stringify` / `JSON.parse` faults propagate; the four observable
failure kinds are modelled as four distinguishable values. -/
inductive CodecError where
  | encryptionError
  | decryptionError
  | serializationError
  | parseError
deriving DecidableEq

/-- `encryptData` from `src/lib/encryption.ts`: AES-encrypt `data` with the
user's email as key, producing a self-contained textual ciphertext.  The
fresh salt drawn internally by the primitive is an explicit argument. -/
def encryptData (data email : String) (salt : Nat) : String :=
  String.mk (printCipher salt (encBytes email salt (strEnc data.data) 0))

/-- Modelled from the spec: `CryptoJS.AES.decrypt(...).toString(CryptoJS.enc.Utf8)`,
the primitive decryption plus UTF-8 decoding; `none` models a throw from the
primitive (malformed input or a failing UTF-8 decode). -/
def rawDecrypt (encryptedData email : String) : Option String :=
  match parseCipher encryptedData.data with
  | none => none
  | some (salt, body) =>
    match decBytes email salt body 0 with
    | none => none
    | some plain =>
      match strDec plain with
      | none => none
      | some chars => some (String.mk chars)

/-- `decryptData` from `src/lib/encryption.ts`: run the primitive, treat an
empty decoded string as a failure, and surface every failure as the single
typed decryption error (the catch-all `throw new Error('Failed to decrypt data')`). -/
def decryptData (encryptedData email : String) : Except CodecError String :=
  match rawDecrypt encryptedData email with
  | none => .error .decryptionError
  | some text => if text = "" then .error .decryptionError else .ok text

instance instDecEqExceptCodec {ε α : Type} [DecidableEq ε] [DecidableEq α] :
    DecidableEq (Except ε α) := by
  intro a b
  cases a <;> cases b
  · rename_i e1 e2
    exact decidable_of_iff (e1 = e2) (by simp)
  · exact isFalse (by simp)
  · exact isFalse (by simp)
  · rename_i a1 a2
    exact decidable_of_iff (a1 = a2) (by simp)

mutual
/-- A JavaScript runtime value as passed to the object-mode helpers.
`undefinedV`/`funcV` model unsupported (non-serializable) leaf types;
`cycleV` marks a node standing for a cyclic reference (a cycle itself is not
representable in an inductive value). -/
inductive JsValue where
  | nullV
  | boolV (b : Bool)
  | numV (n : Int)
  | strV (s : String)
  | arrV (xs : JsArr)
  | objV (fs : JsObj)
  | undefinedV
  | funcV
  | cycleV

/-- Element list of a JavaScript array value. -/
inductive JsArr where
  | nil
  | cons (v : JsValue) (rest : JsArr)

/-- Key/value field list of a JavaScript object value. -/
inductive JsObj where
  | nil
  | cons (key : String) (v : JsValue) (rest : JsObj)
end

mutual
/-- Does the value contain a non-serializable member (unsupported type or
cyclic reference)? -/
def hasNonSer : JsValue → Bool
  | .nullV => false
  | .boolV _ => false
  | .numV _ => false
  | .strV _ => false
  | .arrV xs => hasNonSerArr xs
  | .objV fs => hasNonSerObj fs
  | .undefinedV => true
  | .funcV => true
  | .cycleV => true

def hasNonSerArr : JsArr → Bool
  | .nil => false
  | .cons v rest => hasNonSer v || hasNonSerArr rest

def hasNonSerObj : JsObj → Bool
  | .nil => false
  | .cons _ v rest => hasNonSer v || hasNonSerObj rest
end

/-- The double-quote character. -/
def quoteCh : Char := Char.ofNat 34

/-- The backslash character. -/
def backslashCh : Char := Char.ofNat 92

/-- The opening curly bracket character. -/
def lbraceCh : Char := Char.ofNat 123

/-- The closing curly bracket character. -/
def rbraceCh : Char := Char.ofNat 125

/-- JSON string escaping of one character. -/
def escChar (c : Char) : List Char :=
  if c = quoteCh ∨ c = backslashCh then [backslashCh, c] else [c]

/-- JSON string escaping of a character list. -/
def escStr : List Char → List Char
  | [] => []
  | c :: cs => escChar c ++ escStr cs

/-- A JSON string literal. -/
def serStr (s : String) : List Char := quoteCh :: (escStr s.data ++ [quoteCh])

/-- Big-endian decimal rendering of a natural number. -/
def serNatNum (n : Nat) : List Char :=
  if n = 0 then [digChr 0] else (natDigits n).reverse.map digChr

/-- JSON rendering of an integer. -/
def serInt : Int → List Char
  | .ofNat n => serNatNum n
  | .negSucc m => '-' :: serNatNum (m + 1)

mutual
/-- The canonical JSON text of a value (meaningful only for serializable
values; the non-serializable leaves are rejected before serialization). -/
def serVal : JsValue → List Char
  | .nullV => ['n', 'u', 'l', 'l']
  | .boolV true => ['t', 'r', 'u', 'e']
  | .boolV false => ['f', 'a', 'l', 's', 'e']
  | .numV n => serInt n
  | .strV s => serStr s
  | .arrV xs => '[' :: (serArr xs ++ [']'])
  | .objV fs => lbraceCh :: (serObj fs ++ [rbraceCh])
  | .undefinedV => ['n', 'u', 'l', 'l']
  | .funcV => ['n', 'u', 'l', 'l']
  | .cycleV => ['n', 'u', 'l', 'l']

def serArr : JsArr → List Char
  | .nil => []
  | .cons v .nil => serVal v
  | .cons v (.cons w rest) => serVal v ++ ',' :: serArr (.cons w rest)

def serObj : JsObj → List Char
  | .nil => []
  | .cons k v .nil => serStr k ++ ':' :: serVal v
  | .cons k v (.cons k2 w rest) =>
    serStr k ++ ':' :: serVal v ++ ',' :: serObj (.cons k2 w rest)
end

mutual
/-- Structural size of a value, used to bound the parser fuel. -/
def sizeV : JsValue → Nat
  | .arrV xs => sizeA xs + 1
  | .objV fs => sizeO fs + 1
  | _ => 1

def sizeA : JsArr → Nat
  | .nil => 0
  | .cons v rest => sizeV v + sizeA rest + 1

def sizeO : JsObj → Nat
  | .nil => 0
  | .cons _ v rest => sizeV v + sizeO rest + 1
end

/-- Parse a JSON string body up to the closing quote, undoing the escapes. -/
def parseStrBody : List Char → Option (List Char × List Char)
  | [] => none
  | [c] => if c = quoteCh then some ([], []) else none
  | c :: e :: rest2 =>
    if c = quoteCh then some ([], e :: rest2)
    else if c = backslashCh then (parseStrBody rest2).map (fun p => (e :: p.1, p.2))
    else (parseStrBody (e :: rest2)).map (fun p => (c :: p.1, p.2))

/-- Parse a non-empty big-endian digit run. -/
def parseDigitsBE (l : List Char) : Option (Nat × List Char) :=
  match l.takeWhile isDig with
  | [] => none
  | d :: ds => some (ofDigitsB 10 (((d :: ds).map digVal).reverse), l.dropWhile isDig)

/-- Parse a JSON number (optional minus sign, digit run). -/
def parseJsonNum (l : List Char) : Option (Int × List Char) :=
  match l with
  | [] => none
  | c :: rest =>
    if c = '-' then (parseDigitsBE rest).map (fun p => (-(p.1 : Int), p.2))
    else (parseDigitsBE l).map (fun p => ((p.1 : Int), p.2))

mutual
/-- Recursive-descent JSON value parsing (fuel-bounded). -/
def parseVal : Nat → List Char → Option (JsValue × List Char)
  | 0, _ => none
  | fuel + 1, l =>
    match l with
    | [] => none
    | c :: rest =>
      if c = 'n' then (stripHead ['u', 'l', 'l'] rest).map (fun r => (JsValue.nullV, r))
      else if c = 't' then
        (stripHead ['r', 'u', 'e'] rest).map (fun r => (JsValue.boolV true, r))
      else if c = 'f' then
        (stripHead ['a', 'l', 's', 'e'] rest).map (fun r => (JsValue.boolV false, r))
      else if c = quoteCh then
        (parseStrBody rest).map (fun p => (JsValue.strV (String.mk p.1), p.2))
      else if c = '[' then
        match parseArrItems fuel rest with
        | some (xs, r) => some (JsValue.arrV xs, r)
        | none => none
      else if c = lbraceCh then
        match parseObjItems fuel rest with
        | some (fs, r) => some (JsValue.objV fs, r)
        | none => none
      else
        match parseJsonNum l with
        | some (n, r) => some (JsValue.numV n, r)
        | none => none

/-- Parse the items of a JSON array after the opening bracket. -/
def parseArrItems : Nat → List Char → Option (JsArr × List Char)
  | 0, _ => none
  | fuel + 1, l =>
    match l with
    | [] => none
    | c :: rest =>
      if c = ']' then some (JsArr.nil, rest)
      else
        match parseVal fuel l with
        | some (v, r) =>
          match r with
          | ',' :: r2 =>
            match parseArrItems fuel r2 with
            | some (xs, r3) => some (JsArr.cons v xs, r3)
            | none => none
          | ']' :: r2 => some (JsArr.cons v JsArr.nil, r2)
          | _ => none
        | none => none

/-- Parse the fields of a JSON object after the opening bracket. -/
def parseObjItems : Nat → List Char → Option (JsObj × List Char)
  | 0, _ => none
  | fuel + 1, l =>
    match l with
    | [] => none
    | c :: rest =>
      if c = rbraceCh then some (JsObj.nil, rest)
      else if c = quoteCh then
        match parseStrBody rest with
        | some (k, r) =>
          match r with
          | ':' :: r2 =>
            match parseVal fuel r2 with
            | some (v, r3) =>
              match r3 with
              | ',' :: r4 =>
                match parseObjItems fuel r4 with
                | some (fs, r5) => some (JsObj.cons (String.mk k) v fs, r5)
                | none => none
              | rb :: r4 =>
                if rb = rbraceCh then some (JsObj.cons (String.mk k) v JsObj.nil, r4)
                else none
              | [] => none
            | none => none
          | _ => none
        | none => none
      else none
end

/-- Does the list not begin with a character satisfying `p`? -/
def headNot (p : Char → Bool) : List Char → Bool
  | [] => true
  | c :: _ => !(p c)

/-- Modelled from the spec: `JSON.stringify` — serializes to the canonical
JSON text, or throws (a TypeError, not any codec-typed error) when the value
contains non-serializable members; `none` models the throw. -/
def jsonStringify (v : JsValue) : Option String :=
  if hasNonSer v then none else some (String.mk (serVal v))

/-- Modelled from the spec: `JSON.parse` — parses a JSON text in full, or
throws (a SyntaxError) when the text is not valid JSON; `none` models the
throw. -/
def jsonParse (t : String) : Option JsValue :=
  match parseVal (t.data.length + 1) t.data with
  | some (v, []) => some v
  | _ => none

/-- `encryptObject` from `src/lib/encryption.ts`: `JSON.stringify` the value
(outside the codec's try/catch), then `encryptData`; a stringify fault
surfaces as the serialization failure. -/
def encryptObject (v : JsValue) (email : String) (salt : Nat) : Except CodecError String :=
  match jsonStringify v with
  | none => .error .serializationError
  | some jsonString => .ok (encryptData jsonString email salt)

/-- `decryptObject` from `src/lib/encryption.ts`: `decryptData`, then
`JSON.parse`; a parse fault surfaces as the parse failure, distinct from the
decryption failure. -/
def decryptObject (encryptedData email : String) : Except CodecError JsValue :=
  match decryptData encryptedData email with
  | .error e => .error e
  | .ok text =>
    match jsonParse text with
    | none => .error .parseError
    | some v => .ok v

def reprObj : JsValue :=
  .objV (.cons "a" (.numV 1)
    (.cons "b" (.arrV (.cons (.strV "x") (.cons (.strV "y") .nil)))
      (.cons "c" .nullV .nil)))

/-- The status enum of a task record (`'pending' | 'completed'`). -/
inductive TaskStatus where
  | pending
  | completed
deriving DecidableEq

/-- A `checklist_items` row as fetched from the store
(`src/lib/supabase.ts` `ChecklistItem`). -/
structure ChecklistItemRow where
  id : String
  task_id : String
  encrypted_data : String
  completed : Bool
  position : Int
  created_at : String
  updated_at : String

/-- A `tasks` row with its joined checklist rows, as fetched by
`fetchTasks` (`src/lib/supabase.ts` `Task` plus `checklist_items(*)`). -/
structure TaskRow where
  id : String
  user_id : String
  title : String
  jira_ticket_link : Option String
  encrypted_data : String
  status : TaskStatus
  created_at : String
  updated_at : String
  is_today : Bool
  completed_at : Option String
  checklist_items : List ChecklistItemRow

/-- A decrypted checklist entry (`DecryptedChecklistItem`). -/
structure DecryptedChecklistItem where
  id : String
  task_id : String
  completed : Bool
  position : Int
  created_at : String
  updated_at : String
  text : String

/-- A decrypted task (`DecryptedTask`). -/
structure DecryptedTask where
  id : String
  user_id : String
  title : String
  jira_ticket_link : Option String
  status : TaskStatus
  created_at : String
  updated_at : String
  is_today : Bool
  completed_at : Option String
  description : String
  checklist : List DecryptedChecklistItem

/-- The checklist comparator of `fetchTasks`:
`.sort((a, b) => a.position - b.position)`, ascending by position. -/
def posLe (a b : ChecklistItemRow) : Prop := a.position ≤ b.position

instance : DecidableRel posLe := fun a b => Int.decLe a.position b.position

instance : IsTotal ChecklistItemRow posLe := ⟨fun a b => Int.le_total a.position b.position⟩

instance : IsTrans ChecklistItemRow posLe := ⟨fun _ _ _ => Int.le_trans⟩

/-- The checklist sort of `fetchTasks` (ascending by numeric position). -/
def sortByPosition (items : List ChecklistItemRow) : List ChecklistItemRow :=
  List.insertionSort posLe items

/-- Fail-fast traversal: models mapping a throwing function over a list
inside one try/catch (the `Promise.all` over decrypting map callbacks —
any single throw rejects the whole batch for that record). -/
def exceptMapList {α β : Type} (f : α → Except CodecError β) : List α → Except CodecError (List β)
  | [] => .ok []
  | x :: xs =>
    match f x with
    | .error e => .error e
    | .ok b =>
      match exceptMapList f xs with
      | .error e => .error e
      | .ok bs => .ok (b :: bs)

/-- Decrypt one checklist row (`{ ...item, text }` in `fetchTasks`). -/
def decryptItem (email : String) (it : ChecklistItemRow) : Except CodecError DecryptedChecklistItem :=
  match decryptData it.encrypted_data email with
  | .error e => .error e
  | .ok text =>
    .ok { id := it.id, task_id := it.task_id, completed := it.completed,
          position := it.position, created_at := it.created_at,
          updated_at := it.updated_at, text := text }

/-- The per-record placeholder substituted when decryption of a record (or
any of its checklist entries) fails:
`{ ...task, description: '[Decryption failed]', checklist: [] }`. -/
def placeholderOf (t : TaskRow) : DecryptedTask :=
  { id := t.id, user_id := t.user_id, title := t.title,
    jira_ticket_link := t.jira_ticket_link, status := t.status,
    created_at := t.created_at, updated_at := t.updated_at,
    is_today := t.is_today, completed_at := t.completed_at,
    description := "[Decryption failed]", checklist := [] }

/-- The per-record decryption step of `fetchTasks`
(`src/components/TaskList.tsx`): decrypt the description, sort the checklist
by position and decrypt each entry; on any failure in the record's own
try/catch, substitute the placeholder. -/
def decryptTask (email : String) (t : TaskRow) : DecryptedTask :=
  match decryptData t.encrypted_data email with
  | .error _ => placeholderOf t
  | .ok description =>
    match exceptMapList (decryptItem email) (sortByPosition t.checklist_items) with
    | .error _ => placeholderOf t
    | .ok checklist =>
      { id := t.id, user_id := t.user_id, title := t.title,
        jira_ticket_link := t.jira_ticket_link, status := t.status,
        created_at := t.created_at, updated_at := t.updated_at,
        is_today := t.is_today, completed_at := t.completed_at,
        description := description, checklist := checklist }

/-- The decryption stage of `fetchTasks` over the fetched rows. -/
def fetchTasks (email : String) (rows : List TaskRow) : List DecryptedTask :=
  rows.map (decryptTask email)

/-- Does the record's own decryption (description or any checklist entry)
fail?  Mirrors the branching of `decryptTask`. -/
def taskDecryptFails (email : String) (t : TaskRow) : Bool :=
  match decryptData t.encrypted_data email with
  | .error _ => true
  | .ok _ =>
    match exceptMapList (decryptItem email) (sortByPosition t.checklist_items) with
    | .error _ => true
    | .ok _ => false

/-- Extract the success value of an `Except`, with a fallback. -/
def okD {α : Type} (e : Except CodecError α) (d : α) : α :=
  match e with
  | .ok a => a
  | .error _ => d

/-- The fallback entry used when extracting a decrypted checklist row (never
reached on a successfully decrypted record); keeps the non-encrypted fields. -/
def itemFallback (it : ChecklistItemRow) : DecryptedChecklistItem :=
  { id := it.id, task_id := it.task_id, completed := it.completed,
    position := it.position, created_at := it.created_at,
    updated_at := it.updated_at, text := "" }

/-- Decrypt one checklist row, with the fallback on failure. -/
def decryptItemOr (email : String) (it : ChecklistItemRow) : DecryptedChecklistItem :=
  okD (decryptItem email it) (itemFallback it)

/-- The fully decrypted form of a record whose decryption succeeds. -/
def decryptedOf (email : String) (t : TaskRow) : DecryptedTask :=
  { id := t.id, user_id := t.user_id, title := t.title,
    jira_ticket_link := t.jira_ticket_link, status := t.status,
    created_at := t.created_at, updated_at := t.updated_at,
    is_today := t.is_today, completed_at := t.completed_at,
    description := okD (decryptData t.encrypted_data email) "",
    checklist := (sortByPosition t.checklist_items).map (decryptItemOr email) }

/-- A fetched row that decrypts cleanly under passphrase "p". -/
def goodRow8 : TaskRow :=
  { id := "1", user_id := "u", title := "T1", jira_ticket_link := none,
    encrypted_data := encryptData "hello" "p" 0, status := .pending,
    created_at := "c", updated_at := "u", is_today := true, completed_at := none,
    checklist_items :=
      [{ id := "i1", task_id := "1", encrypted_data := encryptData "step" "p" 1,
         completed := false, position := 1, created_at := "c", updated_at := "u" }] }

/-- A fetched row whose stored ciphertext is corrupt. -/
def badRow8 : TaskRow :=
  { id := "2", user_id := "u", title := "T2", jira_ticket_link := none,
    encrypted_data := "garbage", status := .pending,
    created_at := "c", updated_at := "u", is_today := true, completed_at := none,
    checklist_items := [] }

def wit8rows : List TaskRow := [goodRow8, badRow8]

/-- The update payload computed by `toggleTaskStatus`
(`src/components/TaskItem.tsx`): flip the status, and set `completed_at` to
the current timestamp exactly when the new status is completed, null when
pending; both fields are written in the same update. -/
def togglePayload (current : TaskStatus) (now : String) : TaskStatus × Option String :=
  let newStatus := if current = .pending then TaskStatus.completed else .pending
  (newStatus, if newStatus = .completed then some now else none)

/-- The (status, completed_at) pair a record holds after the toggle flow of
the optimistic-update variant: the fresh coupled payload when the backend
update succeeds, the record's previous pair when it fails and the optimistic
change is reverted. -/
def toggleOutcome (status : TaskStatus) (completedAt : Option String)
    (now : String) (updateSucceeds : Bool) : TaskStatus × Option String :=
  if updateSucceeds then togglePayload status now else (status, completedAt)

theorem ofDigitsB_natDigitsAux (fuel n : Nat) (h : n ≤ fuel) :
    ofDigitsB 10 (natDigitsAux fuel n) = n := by
  induction fuel generalizing n with
  | zero => interval_cases n; simp [natDigitsAux, ofDigitsB]
  | succ fuel ih =>
    by_cases hn : n = 0
    · simp [natDigitsAux, hn, ofDigitsB]
    · have h1 : n / 10 ≤ fuel := by omega
      simp only [natDigitsAux, hn, if_false, ofDigitsB, ih _ h1]
      omega

theorem ofDigitsB_natDigits (n : Nat) : ofDigitsB 10 (natDigits n) = n :=
  ofDigitsB_natDigitsAux n n le_rfl

theorem natDigitsAux_lt (fuel n : Nat) : ∀ d ∈ natDigitsAux fuel n, d < 10 := by
  induction fuel generalizing n with
  | zero => simp [natDigitsAux]
  | succ fuel ih =>
    by_cases hn : n = 0
    · simp [natDigitsAux, hn]
    · simp only [natDigitsAux, hn, if_false, List.mem_cons]
      rintro d (rfl | hd)
      · omega
      · exact ih _ _ hd

theorem natDigits_lt (n : Nat) : ∀ d ∈ natDigits n, d < 10 :=
  natDigitsAux_lt n n

theorem digChr_spec : ∀ d, d < 10 → isDig (digChr d) = true ∧ digVal (digChr d) = d := by
  decide

theorem isDig_semiCh : isDig semiCh = false := by decide

theorem takeWhile_append_stop {p : Char → Bool} (l : List Char) (stop : Char)
    (rest : List Char) (hl : ∀ c ∈ l, p c = true) (hs : p stop = false) :
    (l ++ stop :: rest).takeWhile p = l ∧ (l ++ stop :: rest).dropWhile p = stop :: rest := by
  induction l with
  | nil => simp [List.takeWhile, List.dropWhile, hs]
  | cons c cs ih =>
    have hc : p c = true := hl c (List.mem_cons_self c cs)
    have ih' := ih (fun x hx => hl x (List.mem_cons_of_mem c hx))
    simp [List.takeWhile, List.dropWhile, hc, ih'.1, ih'.2]

theorem parseNat_encNat (n : Nat) (rest : List Char) :
    parseNat (encNat n ++ rest) = some (n, rest) := by
  have hdig : ∀ c ∈ (natDigits n).map digChr, isDig c = true := by
    intro c hc
    obtain ⟨d, hd, rfl⟩ := List.mem_map.mp hc
    exact (digChr_spec d (natDigits_lt n d hd)).1
  have h := takeWhile_append_stop ((natDigits n).map digChr) semiCh rest hdig isDig_semiCh
  have harr : encNat n ++ rest = (natDigits n).map digChr ++ semiCh :: rest := by
    simp [encNat]
  have hval : ((natDigits n).map digChr).map digVal = natDigits n := by
    rw [List.map_map]
    conv_rhs => rw [← List.map_id (natDigits n)]
    apply List.map_congr_left
    intro d hd
    simp [(digChr_spec d (natDigits_lt n d hd)).2]
  rw [parseNat, harr, h.2]
  simp [h.1, hval, ofDigitsB_natDigits]

theorem dropWhile_len_le (p : Char → Bool) (l : List Char) :
    (l.dropWhile p).length ≤ l.length := by
  induction l with
  | nil => simp [List.dropWhile]
  | cons c cs ih =>
    cases hc : p c <;> simp [List.dropWhile, hc] <;> try omega

theorem parseNat_shrinks (l : List Char) (n : Nat) (rest : List Char)
    (h : parseNat l = some (n, rest)) : rest.length < l.length := by
  have hd := dropWhile_len_le isDig l
  rw [parseNat] at h
  split at h
  · rename_i c cs heq
    split_ifs at h with hc
    simp only [Option.some.injEq, Prod.mk.injEq] at h
    obtain ⟨-, rfl⟩ := h
    rw [heq] at hd
    simp at hd
    omega
  · exact absurd h (by simp)

theorem encNat_ne_nil (n : Nat) : encNat n ≠ [] := by
  simp [encNat]

theorem parseBody_encBody (ns : List Nat) :
    ∀ fuel, (encBody ns).length ≤ fuel → parseBody fuel (encBody ns) = some ns := by
  induction ns with
  | nil => intro fuel _; cases fuel <;> simp [encBody, parseBody]
  | cons n ns ih =>
    intro fuel hfuel
    have hne : encBody (n :: ns) ≠ [] := by
      simp only [encBody]
      intro hcontra
      exact encNat_ne_nil n (List.append_eq_nil.mp hcontra).1
    cases hb : encBody (n :: ns) with
    | nil => exact absurd hb hne
    | cons c cs =>
      rw [hb] at hfuel
      cases fuel with
      | zero => simp at hfuel
      | succ fuel =>
        have hparse : parseNat (c :: cs) = some (n, encBody ns) := by
          rw [← hb]; simp only [encBody]; exact parseNat_encNat n (encBody ns)
        have hlen : (encBody ns).length ≤ fuel := by
          have := parseNat_shrinks (c :: cs) n (encBody ns) hparse
          simp at this hfuel
          omega
        simp [parseBody, hparse, ih fuel hlen]

theorem stripHead_append (pre rest : List Char) : stripHead pre (pre ++ rest) = some rest := by
  induction pre with
  | nil => simp [stripHead]
  | cons p ps ih => simp [stripHead, ih]

theorem parseCipher_printCipher (salt : Nat) (body : List Nat) :
    parseCipher (printCipher salt body) = some (salt, body) := by
  have h1 : printCipher salt body = markerChars ++ (encNat salt ++ encBody body) := by
    simp [printCipher]
  rw [parseCipher, h1, stripHead_append]
  simp only [parseNat_encNat, parseBody_encBody body _ le_rfl]

theorem char_toNat_lt (c : Char) : c.toNat < 1114112 := by
  have := c.valid
  rw [UInt32.isValidChar, Nat.isValidChar] at this
  rw [Char.toNat]
  rcases this with h | h <;> omega

theorem char_toNat_valid (c : Char) : Nat.isValidChar c.toNat := by
  have := c.valid
  rwa [UInt32.isValidChar] at this

theorem char_toNat_inj (c1 c2 : Char) (h : c1.toNat = c2.toNat) : c1 = c2 := by
  have := Char.ofNat_toNat c1
  rw [h, Char.ofNat_toNat c2] at this
  exact this.symm

theorem charOfNat_toNat (n : Nat) (h : Nat.isValidChar n) : (Char.ofNat n).toNat = n := by
  rw [Char.ofNat, dif_pos h]
  rfl

theorem triDec_charEnc (c : Char) :
    triDec (c.toNat % 256) (c.toNat / 256 % 256) (c.toNat / 65536) = some c := by
  have hlt := char_toNat_lt c
  have hsum : c.toNat % 256 + 256 * (c.toNat / 256 % 256) + 65536 * (c.toNat / 65536)
      = c.toNat := by omega
  rw [triDec, if_pos]
  · rw [hsum, Char.ofNat_toNat]
  · refine ⟨by omega, by omega, by omega, ?_⟩
    rw [hsum]
    exact char_toNat_valid c

theorem strDec_strEnc (l : List Char) : strDec (strEnc l) = some l := by
  induction l with
  | nil => rfl
  | cons c cs ih =>
    show strDec (charEnc c ++ strEnc cs) = some (c :: cs)
    rw [charEnc]
    show strDec (c.toNat % 256 :: c.toNat / 256 % 256 :: c.toNat / 65536 :: strEnc cs) = _
    rw [strDec, triDec_charEnc, ih]

theorem triDec_inj (b0 b1 b2 : Nat) (c : Char) (h : triDec b0 b1 b2 = some c) :
    [b0, b1, b2] = charEnc c := by
  rw [triDec] at h
  split_ifs at h with hcond
  obtain ⟨h0, h1, h2, hval⟩ := hcond
  simp only [Option.some.injEq] at h
  have htn : c.toNat = b0 + 256 * b1 + 65536 * b2 := by
    rw [← h, charOfNat_toNat _ hval]
  simp only [charEnc, htn, List.cons.injEq, and_true]
  refine ⟨by omega, by omega, by omega⟩

theorem strDec_inj (l : List Char) : ∀ bs, strDec bs = some l → bs = strEnc l := by
  induction l with
  | nil =>
    intro bs h
    match bs with
    | [] => rfl
    | [b0] => exact absurd h (by simp [strDec])
    | [b0, b1] => exact absurd h (by simp [strDec])
    | b0 :: b1 :: b2 :: rest =>
      rw [strDec] at h
      split at h
      · exact absurd h (by simp)
      · exact absurd h (by simp)
  | cons c cs ih =>
    intro bs h
    match bs with
    | [] => exact absurd h (by simp [strDec])
    | [b0] => exact absurd h (by simp [strDec])
    | [b0, b1] => exact absurd h (by simp [strDec])
    | b0 :: b1 :: b2 :: rest =>
      rw [strDec] at h
      split at h
      · rename_i c' cs' htri hrest
        simp only [Option.some.injEq, List.cons.injEq] at h
        obtain ⟨rfl, rfl⟩ := h
        have h3 := triDec_inj _ _ _ _ htri
        have h4 := ih _ hrest
        rw [strEnc, ← h3, ← h4]
        rfl
      · exact absurd h (by simp)

theorem passCode_inj : ∀ l1 l2 : List Char, passCode l1 = passCode l2 → l1 = l2 := by
  intro l1
  induction l1 with
  | nil =>
    intro l2 h
    cases l2 with
    | nil => rfl
    | cons c cs =>
      rw [passCode, passCode] at h
      omega
  | cons c cs ih =>
    intro l2 h
    cases l2 with
    | nil =>
      rw [passCode, passCode] at h
      omega
    | cons d ds =>
      rw [passCode, passCode] at h
      have hc := char_toNat_lt c
      have hd := char_toNat_lt d
      have h1 : c.toNat = d.toNat ∧ passCode cs = passCode ds := by omega
      rw [char_toNat_inj c d h1.1, ih ds h1.2]

theorem decBytes_encBytes (email : String) (salt : Nat) :
    ∀ (bs : List Nat) (i : Nat), decBytes email salt (encBytes email salt bs i) i = some bs := by
  intro bs
  induction bs with
  | nil => intro i; rfl
  | cons b bs ih =>
    intro i
    rw [encBytes, decBytes, if_pos (by omega), ih (i + 1)]
    simp

theorem keyAt_ne (p1 p2 : String) (salt i : Nat) (h : p1.data ≠ p2.data) :
    keyAt p1 salt i ≠ keyAt p2 salt i := by
  intro hk
  rw [keyAt, keyAt] at hk
  have := Nat.eq_of_mul_eq_mul_right (show 0 < salt + i + 1 by omega) hk
  exact h (passCode_inj _ _ (by omega))

theorem decBytes_wrong_key_head (p1 p2 : String) (salt : Nat) (b : Nat) (bs : List Nat)
    (ds : List Nat) (hp : p1.data ≠ p2.data)
    (h : decBytes p2 salt (encBytes p1 salt (b :: bs) 0) 0 = some ds) :
    ∃ d ds', ds = d :: ds' ∧ d ≠ b := by
  rw [encBytes, decBytes] at h
  split_ifs at h with hle
  simp only [Option.map_eq_some'] at h
  obtain ⟨ds', -, rfl⟩ := h
  refine ⟨_, ds', rfl, ?_⟩
  have := keyAt_ne p1 p2 salt 0 hp
  omega

theorem rawDecrypt_encryptData (s email : String) (salt : Nat) :
    rawDecrypt (encryptData s email salt) email = some s := by
  rw [encryptData, rawDecrypt]
  show (match parseCipher (printCipher salt (encBytes email salt (strEnc s.data) 0)) with
    | none => none
    | some (salt, body) =>
      match decBytes email salt body 0 with
      | none => none
      | some plain =>
        match strDec plain with
        | none => none
        | some chars => some (String.mk chars)) = some s
  rw [parseCipher_printCipher]
  simp only [decBytes_encBytes, strDec_strEnc]

theorem decryptData_encryptData (s email : String) (salt : Nat) :
    decryptData (encryptData s email salt) email
      = if s = "" then .error .decryptionError else .ok s := by
  rw [decryptData, rawDecrypt_encryptData]

/-- C1: the round-trip law as literally claimed fails on the code for the
empty string: `decryptData(encryptData("", p), p)` signals a decryption
failure instead of returning `""` (the empty-decode heuristic fires). -/
theorem claim1_empty_string_fails :
    ("p" : String) ≠ "" ∧
    decryptData (encryptData "" "p" 0) "p" = .error .decryptionError := by
  constructor
  · decide
  · rw [decryptData_encryptData]
    simp

/-- C1 (amended): for every non-empty UTF-8 string `s` and every non-empty
passphrase `p`, `decryptData (encryptData s p salt) p` succeeds and returns
`s`, for every salt the primitive may draw. -/
theorem claim1_roundTrip (s email : String) (salt : Nat)
    (hs : s ≠ "") (hp : email ≠ "") :
    decryptData (encryptData s email salt) email = .ok s := by
  rw [decryptData_encryptData, if_neg hs]

theorem claim1_roundTrip_witness :
    ("ab" : String) ≠ "" ∧ ("user@example.com" : String) ≠ "" ∧
    decryptData (encryptData "ab" "user@example.com" 3) "user@example.com" = .ok "ab" :=
  ⟨by decide, by decide,
    claim1_roundTrip "ab" "user@example.com" 3 (by decide) (by decide)⟩

/-- C2: whenever the primitive decodes to the empty string, `decryptData`
signals the typed decryption failure; consequently `decryptData` never
returns `""` on success, and in particular fails on a ciphertext
legitimately produced by `encryptData "" p`. -/
theorem claim2_emptyDecodeFailure :
    (∀ c email, rawDecrypt c email = some "" →
      decryptData c email = .error .decryptionError) ∧
    (∀ c email t, decryptData c email = .ok t → t ≠ "") ∧
    (∀ email salt,
      decryptData (encryptData "" email salt) email = .error .decryptionError) := by
  refine ⟨?_, ?_, ?_⟩
  · intro c email h
    rw [decryptData, h]
    simp
  · intro c email t h
    rw [decryptData] at h
    cases hraw : rawDecrypt c email with
    | none => rw [hraw] at h; exact absurd h (by simp)
    | some text =>
      simp only [hraw] at h
      split_ifs at h with hemp
      intro ht
      injection h with h2
      exact hemp (h2.trans ht)
  · intro email salt
    rw [decryptData_encryptData, if_pos rfl]

theorem claim2_emptyDecodeFailure_witness :
    rawDecrypt (encryptData "" "q" 5) "q" = some "" ∧
    decryptData (encryptData "" "q" 5) "q" = .error .decryptionError ∧
    ("a" : String) ≠ "" :=
  ⟨by decide, claim2_emptyDecodeFailure.1 _ "q" (by decide),
    claim2_emptyDecodeFailure.2.1 (encryptData "a" "q" 0) "q" "a" (by decide)⟩

theorem parseCipher_encryptData (s email : String) (salt : Nat) :
    parseCipher (encryptData s email salt).data
      = some (salt, encBytes email salt (strEnc s.data) 0) := by
  rw [encryptData]
  exact parseCipher_printCipher _ _

/-- C3: key sensitivity — decrypting under a different passphrase never
silently returns the original plaintext: if it returns a string at all, that
string differs from `s`. -/
theorem claim3_keySensitivity (s p1 p2 : String) (salt : Nat) (t : String)
    (hp : p1 ≠ p2) (h : decryptData (encryptData s p1 salt) p2 = .ok t) :
    t ≠ s := by
  intro hts
  rw [hts] at h
  have hdata : p1.data ≠ p2.data := fun hd => hp (congrArg String.mk hd)
  rw [decryptData] at h
  cases hraw : rawDecrypt (encryptData s p1 salt) p2 with
  | none => rw [hraw] at h; exact absurd h (by simp)
  | some text =>
    simp only [hraw] at h
    split_ifs at h with hemp
    injection h with h2
    rw [h2] at hraw hemp
    rw [rawDecrypt, parseCipher_encryptData] at hraw
    cases hdec : decBytes p2 salt (encBytes p1 salt (strEnc s.data) 0) 0 with
    | none => simp [hdec] at hraw
    | some d =>
      simp only [hdec] at hraw
      cases hsd : strDec d with
      | none => simp [hsd] at hraw
      | some chars =>
        simp only [hsd, Option.some.injEq] at hraw
        have hchars : chars = s.data := congrArg String.data hraw
        rw [hchars] at hsd
        have hd := strDec_inj s.data d hsd
        cases hsdat : s.data with
        | nil => exact hemp (congrArg String.mk hsdat)
        | cons c0 cs0 =>
          rw [hsdat] at hdec hd
          rw [strEnc, charEnc] at hdec hd
          obtain ⟨dh, dt, hdcons, hdne⟩ :=
            decBytes_wrong_key_head p1 p2 salt _ _ d hdata hdec
          rw [hdcons] at hd
          simp only [List.cons_append, List.cons.injEq] at hd
          exact hdne hd.1

theorem claim3_keySensitivity_witness :
    ("b" : String) ≠ "a" ∧
    decryptData (encryptData "a" "b" 0) "a" = .ok (String.mk [Char.ofNat 197218]) ∧
    String.mk [Char.ofNat 197218] ≠ "a" :=
  ⟨by decide, by decide,
    claim3_keySensitivity "a" "b" "a" 0 (String.mk [Char.ofNat 197218])
      (by decide) (by decide)⟩

/-- C4: as literally claimed ("for every string s ... every such output
decrypts back to s") the claim fails at `s = ""`: the two ciphertexts do
differ, but decryption of either signals failure instead of returning `""`. -/
theorem claim4_empty_string_fails :
    encryptData "" "q" 1 ≠ encryptData "" "q" 2 ∧
    decryptData (encryptData "" "q" 1) "q" = .error .decryptionError := by
  constructor
  · decide
  · rw [decryptData_encryptData]
    simp

/-- C4 (amended): encrypting the same text/passphrase pair under two distinct
fresh salts yields two different ciphertexts, and for non-empty `s` each of
them decrypts back to `s` under the same passphrase. -/
theorem claim4_freshness (s email : String) (salt1 salt2 : Nat) (hsalt : salt1 ≠ salt2) :
    encryptData s email salt1 ≠ encryptData s email salt2 ∧
    (s ≠ "" → decryptData (encryptData s email salt1) email = .ok s ∧
      decryptData (encryptData s email salt2) email = .ok s) := by
  constructor
  · intro he
    have h1 := parseCipher_encryptData s email salt1
    have h2 := parseCipher_encryptData s email salt2
    rw [he] at h1
    rw [h1] at h2
    simp only [Option.some.injEq, Prod.mk.injEq] at h2
    exact hsalt h2.1
  · intro hs
    rw [decryptData_encryptData, if_neg hs, decryptData_encryptData, if_neg hs]
    exact ⟨rfl, rfl⟩

theorem claim4_freshness_witness :
    (0 : Nat) ≠ 1 ∧ ("cd" : String) ≠ "" ∧
    encryptData "cd" "k" 0 ≠ encryptData "cd" "k" 1 ∧
    decryptData (encryptData "cd" "k" 0) "k" = .ok "cd" :=
  ⟨by decide, by decide, (claim4_freshness "cd" "k" 0 1 (by decide)).1,
    ((claim4_freshness "cd" "k" 0 1 (by decide)).2 (by decide)).1⟩

/-- C5: an input that is not a well-formed ciphertext makes `decryptData`
signal the single typed decryption error (the catch-all in the source maps
every primitive fault to it), never an untyped fault; in particular for the
literal "not-valid-ciphertext" under every passphrase. -/
theorem claim5_malformedInput :
    (∀ c email, parseCipher c.data = none →
      decryptData c email = .error .decryptionError) ∧
    (∀ email, decryptData "not-valid-ciphertext" email = .error .decryptionError) := by
  constructor
  · intro c email hparse
    rw [decryptData, rawDecrypt, hparse]
  · intro email
    have h : parseCipher ("not-valid-ciphertext" : String).data = none := by decide
    rw [decryptData, rawDecrypt, h]

theorem claim5_malformedInput_witness :
    parseCipher ("xyz" : String).data = none ∧
    decryptData "xyz" "p2" = .error .decryptionError :=
  ⟨by decide, claim5_malformedInput.1 "xyz" "p2" (by decide)⟩

theorem takeWhile_append_headNot {p : Char → Bool} (l rest : List Char)
    (hl : ∀ c ∈ l, p c = true) (hr : headNot p rest = true) :
    (l ++ rest).takeWhile p = l ∧ (l ++ rest).dropWhile p = rest := by
  induction l with
  | nil =>
    cases rest with
    | nil => simp [List.takeWhile, List.dropWhile]
    | cons c cs =>
      rw [headNot] at hr
      simp only [Bool.not_eq_true'] at hr
      simp [List.takeWhile, List.dropWhile, hr]
  | cons c cs ih =>
    have hc : p c = true := hl c (List.mem_cons_self c cs)
    have ih' := ih (fun x hx => hl x (List.mem_cons_of_mem c hx))
    simp [List.takeWhile, List.dropWhile, hc, ih'.1, ih'.2]

theorem parseStrBody_escStr (s : List Char) (rest : List Char) :
    parseStrBody (escStr s ++ quoteCh :: rest) = some (s, rest) := by
  induction s with
  | nil =>
    show parseStrBody (quoteCh :: rest) = some ([], rest)
    cases rest with
    | nil => rw [parseStrBody, if_pos rfl]
    | cons e r2 => rw [parseStrBody, if_pos rfl]
  | cons c cs ih =>
    have hassoc : escStr (c :: cs) ++ quoteCh :: rest
        = escChar c ++ (escStr cs ++ quoteCh :: rest) := by
      rw [escStr, List.append_assoc]
    rw [hassoc]
    obtain ⟨e, r2, he⟩ : ∃ e r2, escStr cs ++ quoteCh :: rest = e :: r2 := by
      cases hx : escStr cs ++ quoteCh :: rest with
      | nil => exact absurd hx (by cases cs <;> simp [escStr, escChar])
      | cons e r2 => exact ⟨e, r2, rfl⟩
    by_cases hc : c = quoteCh ∨ c = backslashCh
    · rw [escChar, if_pos hc]
      show parseStrBody (backslashCh :: c :: (escStr cs ++ quoteCh :: rest)) = _
      rw [parseStrBody, if_neg (by decide), if_pos rfl, ih]
      rfl
    · rw [escChar, if_neg hc]
      push_neg at hc
      show parseStrBody (c :: (escStr cs ++ quoteCh :: rest)) = _
      rw [he, parseStrBody, if_neg hc.1, if_neg hc.2, ← he, ih]
      rfl

theorem serNatNum_digits (n : Nat) : ∀ c ∈ serNatNum n, isDig c = true := by
  intro c hc
  rw [serNatNum] at hc
  split_ifs at hc with hn
  · simp at hc
    rw [hc]
    exact (digChr_spec 0 (by omega)).1
  · obtain ⟨d, hd, rfl⟩ := List.mem_map.mp hc
    exact (digChr_spec d (natDigits_lt n d (List.mem_reverse.mp hd))).1

theorem serNatNum_ne_nil (n : Nat) : serNatNum n ≠ [] := by
  rw [serNatNum]
  split_ifs with hn
  · simp
  · intro hcontra
    simp only [List.map_eq_nil, List.reverse_eq_nil_iff] at hcontra
    have : ofDigitsB 10 (natDigits n) = n := ofDigitsB_natDigits n
    rw [hcontra] at this
    simp [ofDigitsB] at this
    omega

theorem digVal_digChr_map (ds : List Nat) (h : ∀ d ∈ ds, d < 10) :
    (ds.map digChr).map digVal = ds := by
  rw [List.map_map]
  conv_rhs => rw [← List.map_id ds]
  apply List.map_congr_left
  intro d hd
  simp [(digChr_spec d (h d hd)).2]

theorem digVal_reverse_map (ds : List Nat) (h : ∀ d ∈ ds, d < 10) :
    ((ds.reverse.map digChr).map digVal).reverse = ds := by
  rw [List.map_map]
  have hmm : ds.reverse.map (digVal ∘ digChr) = ds.reverse := by
    conv_rhs => rw [← List.map_id ds.reverse]
    apply List.map_congr_left
    intro d hd
    simp [(digChr_spec d (h d (List.mem_reverse.mp hd))).2]
  rw [hmm, List.reverse_reverse]

theorem parseDigitsBE_serNatNum (n : Nat) (rest : List Char)
    (hr : headNot isDig rest = true) :
    parseDigitsBE (serNatNum n ++ rest) = some (n, rest) := by
  have h := takeWhile_append_headNot (serNatNum n) rest (serNatNum_digits n) hr
  have hval : ofDigitsB 10 (((serNatNum n).map digVal).reverse) = n := by
    rw [serNatNum]
    split_ifs with hn
    · subst hn
      decide
    · rw [digVal_reverse_map _ (natDigits_lt n), ofDigitsB_natDigits]
  cases hsn : serNatNum n with
  | nil => exact absurd hsn (serNatNum_ne_nil n)
  | cons d ds =>
    rw [hsn] at h hval
    rw [parseDigitsBE, h.1, h.2]
    show some (ofDigitsB 10 ((List.map digVal (d :: ds)).reverse), rest) = some (n, rest)
    rw [hval]

theorem serNatNum_head_dig (n : Nat) :
    ∃ d ds, serNatNum n = d :: ds ∧ isDig d = true := by
  cases hsn : serNatNum n with
  | nil => exact absurd hsn (serNatNum_ne_nil n)
  | cons d ds =>
    refine ⟨d, ds, rfl, serNatNum_digits n d ?_⟩
    rw [hsn]
    exact List.mem_cons_self d ds

theorem parseJsonNum_serInt (n : Int) (rest : List Char)
    (hr : headNot isDig rest = true) :
    parseJsonNum (serInt n ++ rest) = some (n, rest) := by
  cases n with
  | ofNat m =>
    obtain ⟨d, ds, hsn, hd⟩ := serNatNum_head_dig m
    have hdne : ¬(d = '-') := by
      intro hcontra
      rw [hcontra] at hd
      exact absurd hd (by decide)
    show parseJsonNum (serNatNum m ++ rest) = some (Int.ofNat m, rest)
    rw [hsn]
    show parseJsonNum (d :: (ds ++ rest)) = some (Int.ofNat m, rest)
    rw [parseJsonNum]
    show (if d = '-' then (parseDigitsBE (ds ++ rest)).map (fun p => (-(p.1 : Int), p.2))
      else (parseDigitsBE (d :: (ds ++ rest))).map (fun p => ((p.1 : Int), p.2)))
      = some (Int.ofNat m, rest)
    rw [if_neg hdne]
    have h2 : d :: (ds ++ rest) = serNatNum m ++ rest := by rw [hsn]; rfl
    rw [h2, parseDigitsBE_serNatNum m rest hr]
    rfl
  | negSucc m =>
    show parseJsonNum ('-' :: (serNatNum (m + 1) ++ rest)) = some (Int.negSucc m, rest)
    rw [parseJsonNum]
    show (if '-' = '-' then
        (parseDigitsBE (serNatNum (m + 1) ++ rest)).map (fun p => (-(p.1 : Int), p.2))
      else (parseDigitsBE ('-' :: (serNatNum (m + 1) ++ rest))).map
        (fun p => ((p.1 : Int), p.2)))
      = some (Int.negSucc m, rest)
    rw [if_pos rfl, parseDigitsBE_serNatNum (m + 1) rest hr]
    show some (-(((m + 1 : Nat)) : Int), rest) = some (Int.negSucc m, rest)
    rw [Int.negSucc_eq]
    simp

theorem parseVal_cons (fuel : Nat) (c : Char) (rest : List Char) :
    parseVal (fuel + 1) (c :: rest) =
      if c = 'n' then (stripHead ['u', 'l', 'l'] rest).map (fun r => (JsValue.nullV, r))
      else if c = 't' then
        (stripHead ['r', 'u', 'e'] rest).map (fun r => (JsValue.boolV true, r))
      else if c = 'f' then
        (stripHead ['a', 'l', 's', 'e'] rest).map (fun r => (JsValue.boolV false, r))
      else if c = quoteCh then
        (parseStrBody rest).map (fun p => (JsValue.strV (String.mk p.1), p.2))
      else if c = '[' then
        match parseArrItems fuel rest with
        | some (xs, r) => some (JsValue.arrV xs, r)
        | none => none
      else if c = lbraceCh then
        match parseObjItems fuel rest with
        | some (fs, r) => some (JsValue.objV fs, r)
        | none => none
      else
        match parseJsonNum (c :: rest) with
        | some (n, r) => some (JsValue.numV n, r)
        | none => none := by
  rfl

theorem parseArrItems_cons (fuel : Nat) (c : Char) (rest : List Char) :
    parseArrItems (fuel + 1) (c :: rest) =
      if c = ']' then some (JsArr.nil, rest)
      else
        match parseVal fuel (c :: rest) with
        | some (v, r) =>
          match r with
          | ',' :: r2 =>
            match parseArrItems fuel r2 with
            | some (xs, r3) => some (JsArr.cons v xs, r3)
            | none => none
          | ']' :: r2 => some (JsArr.cons v JsArr.nil, r2)
          | _ => none
        | none => none := by
  rfl

theorem parseObjItems_cons (fuel : Nat) (c : Char) (rest : List Char) :
    parseObjItems (fuel + 1) (c :: rest) =
      if c = rbraceCh then some (JsObj.nil, rest)
      else if c = quoteCh then
        match parseStrBody rest with
        | some (k, r) =>
          match r with
          | ':' :: r2 =>
            match parseVal fuel r2 with
            | some (v, r3) =>
              match r3 with
              | ',' :: r4 =>
                match parseObjItems fuel r4 with
                | some (fs, r5) => some (JsObj.cons (String.mk k) v fs, r5)
                | none => none
              | rb :: r4 =>
                if rb = rbraceCh then some (JsObj.cons (String.mk k) v JsObj.nil, r4)
                else none
              | [] => none
            | none => none
          | _ => none
        | none => none
      else none := by
  rfl

theorem serInt_head (n : Int) :
    ∃ c cs, serInt n = c :: cs ∧ (c = '-' ∨ isDig c = true) := by
  cases n with
  | ofNat m =>
    obtain ⟨d, ds, hsn, hd⟩ := serNatNum_head_dig m
    exact ⟨d, ds, hsn, Or.inr hd⟩
  | negSucc m => exact ⟨'-', serNatNum (m + 1), rfl, Or.inl rfl⟩

theorem isDig_ne_special (c : Char) (h : isDig c = true) :
    c ≠ 'n' ∧ c ≠ 't' ∧ c ≠ 'f' ∧ c ≠ quoteCh ∧ c ≠ '[' ∧ c ≠ lbraceCh ∧
      c ≠ ']' ∧ c ≠ rbraceCh := by
  refine ⟨?_, ?_, ?_, ?_, ?_, ?_, ?_, ?_⟩ <;>
    first
    | (rintro rfl; exact absurd h (by decide))

theorem serVal_head_shape (v : JsValue) :
    ∃ c cs, serVal v = c :: cs ∧
      (c = 'n' ∨ c = 't' ∨ c = 'f' ∨ c = quoteCh ∨ c = '[' ∨ c = lbraceCh ∨
        c = '-' ∨ isDig c = true) := by
  cases v with
  | nullV => exact ⟨'n', ['u', 'l', 'l'], rfl, by tauto⟩
  | boolV b =>
    cases b with
    | true => exact ⟨'t', ['r', 'u', 'e'], rfl, by tauto⟩
    | false => exact ⟨'f', ['a', 'l', 's', 'e'], rfl, by tauto⟩
  | numV n =>
    obtain ⟨c, cs, hser, hc⟩ := serInt_head n
    exact ⟨c, cs, hser, by tauto⟩
  | strV s => exact ⟨quoteCh, escStr s.data ++ [quoteCh], rfl, by tauto⟩
  | arrV xs => exact ⟨'[', serArr xs ++ [']'], rfl, by tauto⟩
  | objV fs => exact ⟨lbraceCh, serObj fs ++ [rbraceCh], rfl, by tauto⟩
  | undefinedV => exact ⟨'n', ['u', 'l', 'l'], rfl, by tauto⟩
  | funcV => exact ⟨'n', ['u', 'l', 'l'], rfl, by tauto⟩
  | cycleV => exact ⟨'n', ['u', 'l', 'l'], rfl, by tauto⟩

theorem serVal_head_ne_rbrack (v : JsValue) :
    ∃ c cs, serVal v = c :: cs ∧ ¬(c = ']') := by
  obtain ⟨c, cs, hser, hc⟩ := serVal_head_shape v
  refine ⟨c, cs, hser, ?_⟩
  rcases hc with rfl | rfl | rfl | rfl | rfl | rfl | rfl | h
  · decide
  · decide
  · decide
  · decide
  · decide
  · decide
  · decide
  · exact (isDig_ne_special c h).2.2.2.2.2.2.1

theorem sizeV_pos (v : JsValue) : 1 ≤ sizeV v := by
  cases v <;> simp [sizeV]

mutual

theorem parseVal_ser : ∀ (v : JsValue) (fuel : Nat) (rest : List Char),
    hasNonSer v = false → sizeV v < fuel → headNot isDig rest = true →
    parseVal fuel (serVal v ++ rest) = some (v, rest)
  | .nullV, fuel, rest, _, hf, _ => by
    cases fuel with
    | zero => exact absurd hf (by omega)
    | succ g =>
      show parseVal (g + 1) ('n' :: ('u' :: 'l' :: 'l' :: rest)) = some (.nullV, rest)
      rw [parseVal_cons, if_pos rfl]
      rw [show ('u' :: 'l' :: 'l' :: rest) = ['u', 'l', 'l'] ++ rest from rfl,
        stripHead_append]
      rfl
  | .boolV true, fuel, rest, _, hf, _ => by
    cases fuel with
    | zero => exact absurd hf (by omega)
    | succ g =>
      show parseVal (g + 1) ('t' :: ('r' :: 'u' :: 'e' :: rest)) = some (.boolV true, rest)
      rw [parseVal_cons, if_neg (by decide), if_pos rfl]
      rw [show ('r' :: 'u' :: 'e' :: rest) = ['r', 'u', 'e'] ++ rest from rfl,
        stripHead_append]
      rfl
  | .boolV false, fuel, rest, _, hf, _ => by
    cases fuel with
    | zero => exact absurd hf (by omega)
    | succ g =>
      show parseVal (g + 1) ('f' :: ('a' :: 'l' :: 's' :: 'e' :: rest))
        = some (.boolV false, rest)
      rw [parseVal_cons, if_neg (by decide), if_neg (by decide), if_pos rfl]
      rw [show ('a' :: 'l' :: 's' :: 'e' :: rest) = ['a', 'l', 's', 'e'] ++ rest from rfl,
        stripHead_append]
      rfl
  | .numV n, fuel, rest, _, hf, hr => by
    cases fuel with
    | zero => exact absurd hf (by omega)
    | succ g =>
      obtain ⟨c, cs, hser, hc⟩ := serInt_head n
      have hne : c ≠ 'n' ∧ c ≠ 't' ∧ c ≠ 'f' ∧ c ≠ quoteCh ∧ c ≠ '[' ∧ c ≠ lbraceCh := by
        rcases hc with rfl | h
        · exact ⟨by decide, by decide, by decide, by decide, by decide, by decide⟩
        · have h2 := isDig_ne_special c h
          exact ⟨h2.1, h2.2.1, h2.2.2.1, h2.2.2.2.1, h2.2.2.2.2.1, h2.2.2.2.2.2.1⟩
      have hx : serVal (.numV n) ++ rest = c :: (cs ++ rest) := by
        show serInt n ++ rest = c :: (cs ++ rest)
        rw [hser]
        rfl
      rw [hx, parseVal_cons, if_neg hne.1, if_neg hne.2.1, if_neg hne.2.2.1,
        if_neg hne.2.2.2.1, if_neg hne.2.2.2.2.1, if_neg hne.2.2.2.2.2]
      have hy : c :: (cs ++ rest) = serInt n ++ rest := by rw [hser]; rfl
      rw [hy, parseJsonNum_serInt n rest hr]
  | .strV s, fuel, rest, _, hf, _ => by
    cases fuel with
    | zero => exact absurd hf (by omega)
    | succ g =>
      have hx : serVal (.strV s) ++ rest
          = quoteCh :: (escStr s.data ++ quoteCh :: rest) := by
        show serStr s ++ rest = _
        simp [serStr]
      rw [hx, parseVal_cons, if_neg (by decide), if_neg (by decide), if_neg (by decide),
        if_pos rfl, parseStrBody_escStr]
      rfl
  | .arrV xs, fuel, rest, hns, hf, _ => by
    cases fuel with
    | zero => exact absurd hf (by omega)
    | succ g =>
      have hns' : hasNonSerArr xs = false := hns
      have hsz : sizeA xs < g := by
        have h1 : sizeA xs + 1 < g + 1 := hf
        omega
      have hx : serVal (.arrV xs) ++ rest = '[' :: (serArr xs ++ ']' :: rest) := by
        show ('[' :: (serArr xs ++ [']'])) ++ rest = _
        simp
      rw [hx, parseVal_cons, if_neg (by decide), if_neg (by decide), if_neg (by decide),
        if_neg (by decide), if_pos rfl, parseArrItems_ser xs g rest hns' hsz]
  | .objV fs, fuel, rest, hns, hf, _ => by
    cases fuel with
    | zero => exact absurd hf (by omega)
    | succ g =>
      have hns' : hasNonSerObj fs = false := hns
      have hsz : sizeO fs < g := by
        have h1 : sizeO fs + 1 < g + 1 := hf
        omega
      have hx : serVal (.objV fs) ++ rest = lbraceCh :: (serObj fs ++ rbraceCh :: rest) := by
        show (lbraceCh :: (serObj fs ++ [rbraceCh])) ++ rest = _
        simp
      rw [hx, parseVal_cons, if_neg (by decide), if_neg (by decide), if_neg (by decide),
        if_neg (by decide), if_neg (by decide), if_pos rfl,
        parseObjItems_ser fs g rest hns' hsz]
  | .undefinedV, fuel, rest, hns, hf, _ => by
    exact absurd hns (by simp [hasNonSer])
  | .funcV, fuel, rest, hns, hf, _ => by
    exact absurd hns (by simp [hasNonSer])
  | .cycleV, fuel, rest, hns, hf, _ => by
    exact absurd hns (by simp [hasNonSer])

theorem parseArrItems_ser : ∀ (xs : JsArr) (fuel : Nat) (rest : List Char),
    hasNonSerArr xs = false → sizeA xs < fuel →
    parseArrItems fuel (serArr xs ++ ']' :: rest) = some (xs, rest)
  | .nil, fuel, rest, _, hf => by
    cases fuel with
    | zero => exact absurd hf (by omega)
    | succ g =>
      show parseArrItems (g + 1) (']' :: rest) = some (.nil, rest)
      rw [parseArrItems_cons, if_pos rfl]
  | .cons v .nil, fuel, rest, hns, hf => by
    cases fuel with
    | zero => exact absurd hf (by omega)
    | succ g =>
      have hnsv : hasNonSer v = false := by
        have h1 : (hasNonSer v || hasNonSerArr .nil) = false := hns
        simp at h1
        exact h1.1
      have hszv : sizeV v < g := by
        have h1 : sizeV v + 0 + 1 < g + 1 := hf
        omega
      obtain ⟨c, cs, hser, hcne⟩ := serVal_head_ne_rbrack v
      have hx : serArr (.cons v .nil) ++ ']' :: rest = c :: (cs ++ ']' :: rest) := by
        show serVal v ++ ']' :: rest = _
        rw [hser]
        rfl
      have hy : c :: (cs ++ ']' :: rest) = serVal v ++ ']' :: rest := by
        rw [hser]
        rfl
      rw [hx, parseArrItems_cons, if_neg hcne, hy,
        parseVal_ser v g (']' :: rest) hnsv hszv rfl]
      rfl
  | .cons v (.cons w rest2), fuel, rest, hns, hf => by
    cases fuel with
    | zero => exact absurd hf (by omega)
    | succ g =>
      have hnsv : hasNonSer v = false ∧ hasNonSerArr (.cons w rest2) = false := by
        have h1 : (hasNonSer v || hasNonSerArr (.cons w rest2)) = false := hns
        simpa using h1
      have hsz : sizeV v < g ∧ sizeA (.cons w rest2) < g := by
        have h1 : sizeV v + sizeA (.cons w rest2) + 1 < g + 1 := hf
        omega
      obtain ⟨c, cs, hser, hcne⟩ := serVal_head_ne_rbrack v
      have hx : serArr (.cons v (.cons w rest2)) ++ ']' :: rest
          = c :: (cs ++ (',' :: (serArr (.cons w rest2) ++ ']' :: rest))) := by
        show (serVal v ++ ',' :: serArr (.cons w rest2)) ++ ']' :: rest = _
        rw [hser]
        simp
      have hy : c :: (cs ++ (',' :: (serArr (.cons w rest2) ++ ']' :: rest)))
          = serVal v ++ (',' :: (serArr (.cons w rest2) ++ ']' :: rest)) := by
        rw [hser]
        rfl
      rw [hx, parseArrItems_cons, if_neg hcne, hy,
        parseVal_ser v g (',' :: (serArr (.cons w rest2) ++ ']' :: rest)) hnsv.1 hsz.1 rfl]
      show (match parseArrItems g (serArr (.cons w rest2) ++ ']' :: rest) with
        | some (xs, r3) => some (JsArr.cons v xs, r3)
        | none => none) = some (JsArr.cons v (.cons w rest2), rest)
      rw [parseArrItems_ser (.cons w rest2) g rest hnsv.2 hsz.2]

theorem parseObjItems_ser : ∀ (fs : JsObj) (fuel : Nat) (rest : List Char),
    hasNonSerObj fs = false → sizeO fs < fuel →
    parseObjItems fuel (serObj fs ++ rbraceCh :: rest) = some (fs, rest)
  | .nil, fuel, rest, _, hf => by
    cases fuel with
    | zero => exact absurd hf (by omega)
    | succ g =>
      show parseObjItems (g + 1) (rbraceCh :: rest) = some (.nil, rest)
      rw [parseObjItems_cons, if_pos rfl]
  | .cons k v .nil, fuel, rest, hns, hf => by
    cases fuel with
    | zero => exact absurd hf (by omega)
    | succ g =>
      have hnsv : hasNonSer v = false := by
        have h1 : (hasNonSer v || hasNonSerObj .nil) = false := hns
        simp at h1
        exact h1.1
      have hszv : sizeV v < g := by
        have h1 : sizeV v + 0 + 1 < g + 1 := hf
        omega
      have hx : serObj (.cons k v .nil) ++ rbraceCh :: rest
          = quoteCh :: (escStr k.data ++ quoteCh :: (':' :: (serVal v ++ rbraceCh :: rest))) := by
        show (serStr k ++ ':' :: serVal v) ++ rbraceCh :: rest = _
        simp [serStr]
      rw [hx, parseObjItems_cons, if_neg (by decide), if_pos rfl, parseStrBody_escStr]
      show (match parseVal g (serVal v ++ rbraceCh :: rest) with
        | some (v, r3) =>
          match r3 with
          | ',' :: r4 =>
            match parseObjItems g r4 with
            | some (fs, r5) => some (JsObj.cons (String.mk k.data) v fs, r5)
            | none => none
          | rb :: r4 =>
            if rb = rbraceCh then some (JsObj.cons (String.mk k.data) v JsObj.nil, r4)
            else none
          | [] => none
        | none => none) = some (JsObj.cons k v .nil, rest)
      rw [parseVal_ser v g (rbraceCh :: rest) hnsv hszv rfl]
      rfl
  | .cons k v (.cons k2 w rest2), fuel, rest, hns, hf => by
    cases fuel with
    | zero => exact absurd hf (by omega)
    | succ g =>
      have hnsv : hasNonSer v = false ∧ hasNonSerObj (.cons k2 w rest2) = false := by
        have h1 : (hasNonSer v || hasNonSerObj (.cons k2 w rest2)) = false := hns
        simpa using h1
      have hsz : sizeV v < g ∧ sizeO (.cons k2 w rest2) < g := by
        have h1 : sizeV v + sizeO (.cons k2 w rest2) + 1 < g + 1 := hf
        omega
      have hx : serObj (.cons k v (.cons k2 w rest2)) ++ rbraceCh :: rest
          = quoteCh :: (escStr k.data ++ quoteCh ::
            (':' :: (serVal v ++ (',' :: (serObj (.cons k2 w rest2) ++ rbraceCh :: rest))))) := by
        show (serStr k ++ ':' :: serVal v ++ ',' :: serObj (.cons k2 w rest2))
            ++ rbraceCh :: rest = _
        simp [serStr]
      rw [hx, parseObjItems_cons, if_neg (by decide), if_pos rfl, parseStrBody_escStr]
      show (match parseVal g (serVal v ++ (',' :: (serObj (.cons k2 w rest2) ++ rbraceCh :: rest))) with
        | some (v, r3) =>
          match r3 with
          | ',' :: r4 =>
            match parseObjItems g r4 with
            | some (fs, r5) => some (JsObj.cons (String.mk k.data) v fs, r5)
            | none => none
          | rb :: r4 =>
            if rb = rbraceCh then some (JsObj.cons (String.mk k.data) v JsObj.nil, r4)
            else none
          | [] => none
        | none => none) = some (JsObj.cons k v (.cons k2 w rest2), rest)
      rw [parseVal_ser v g (',' :: (serObj (.cons k2 w rest2) ++ rbraceCh :: rest))
        hnsv.1 hsz.1 rfl]
      show (match parseObjItems g (serObj (.cons k2 w rest2) ++ rbraceCh :: rest) with
        | some (fs, r5) => some (JsObj.cons (String.mk k.data) v fs, r5)
        | none => none) = some (JsObj.cons k v (.cons k2 w rest2), rest)
      rw [parseObjItems_ser (.cons k2 w rest2) g rest hnsv.2 hsz.2]

end

theorem serInt_ne_nil (n : Int) : serInt n ≠ [] := by
  obtain ⟨c, cs, hser, -⟩ := serInt_head n
  rw [hser]
  simp

theorem serVal_ne_nil (v : JsValue) : serVal v ≠ [] := by
  obtain ⟨c, cs, hser, -⟩ := serVal_head_shape v
  rw [hser]
  simp

mutual

theorem sizeV_le_len : ∀ v : JsValue, sizeV v ≤ (serVal v).length
  | .nullV => by simp [sizeV, serVal]
  | .boolV true => by simp [sizeV, serVal]
  | .boolV false => by simp [sizeV, serVal]
  | .numV n => by
    show 1 ≤ (serInt n).length
    have := serInt_ne_nil n
    cases h : serInt n with
    | nil => exact absurd h this
    | cons c cs => simp
  | .strV s => by
    show 1 ≤ (serStr s).length
    simp [serStr]
  | .arrV xs => by
    have h := sizeA_le_len xs
    show sizeA xs + 1 ≤ ('[' :: (serArr xs ++ [']'])).length
    simp only [List.length_cons, List.length_append, List.length_singleton]
    omega
  | .objV fs => by
    have h := sizeO_le_len fs
    show sizeO fs + 1 ≤ (lbraceCh :: (serObj fs ++ [rbraceCh])).length
    simp only [List.length_cons, List.length_append, List.length_singleton]
    omega
  | .undefinedV => by simp [sizeV, serVal]
  | .funcV => by simp [sizeV, serVal]
  | .cycleV => by simp [sizeV, serVal]

theorem sizeA_le_len : ∀ xs : JsArr, sizeA xs ≤ (serArr xs).length + 1
  | .nil => by simp [sizeA, serArr]
  | .cons v .nil => by
    have h := sizeV_le_len v
    show sizeV v + 0 + 1 ≤ (serVal v).length + 1
    omega
  | .cons v (.cons w rest) => by
    have h1 := sizeV_le_len v
    have h2 := sizeA_le_len (.cons w rest)
    show sizeV v + sizeA (.cons w rest) + 1
      ≤ (serVal v ++ ',' :: serArr (.cons w rest)).length + 1
    simp only [List.length_append, List.length_cons]
    omega

theorem sizeO_le_len : ∀ fs : JsObj, sizeO fs ≤ (serObj fs).length + 1
  | .nil => by simp [sizeO, serObj]
  | .cons k v .nil => by
    have h := sizeV_le_len v
    show sizeV v + 0 + 1 ≤ (serStr k ++ ':' :: serVal v).length + 1
    simp only [List.length_append, List.length_cons]
    omega
  | .cons k v (.cons k2 w rest) => by
    have h1 := sizeV_le_len v
    have h2 := sizeO_le_len (.cons k2 w rest)
    show sizeV v + sizeO (.cons k2 w rest) + 1
      ≤ (serStr k ++ ':' :: serVal v ++ ',' :: serObj (.cons k2 w rest)).length + 1
    simp only [List.length_append, List.length_cons]
    omega

end

theorem decryptData_error_eq (c email : String) (e : CodecError)
    (h : decryptData c email = .error e) : e = .decryptionError := by
  rw [decryptData] at h
  cases hraw : rawDecrypt c email with
  | none =>
    rw [hraw] at h
    injection h with h2
    exact h2.symm
  | some text =>
    simp only [hraw] at h
    split_ifs at h with hemp
    all_goals first
      | (injection h with h2; exact h2.symm)
      | (exact absurd h (by simp))

/-- C6: object-mode error taxonomy — a value with non-serializable members
makes `encryptObject` signal the serialization failure; `decryptObject`
signals the decryption failure exactly when `decryptData` fails, and the
parse failure (a distinct error value) when the decrypted text is not valid
JSON. -/
theorem claim6_objectErrors :
    (∀ v email salt, hasNonSer v = true →
      encryptObject v email salt = .error .serializationError) ∧
    (∀ c email e, decryptData c email = .error e →
      decryptObject c email = .error .decryptionError) ∧
    (∀ c email t, decryptData c email = .ok t → (jsonParse t).isNone = true →
      decryptObject c email = .error .parseError) ∧
    (CodecError.serializationError ≠ CodecError.decryptionError ∧
      CodecError.parseError ≠ CodecError.decryptionError ∧
      CodecError.parseError ≠ CodecError.serializationError) := by
  refine ⟨?_, ?_, ?_, by decide, by decide, by decide⟩
  · intro v email salt h
    rw [encryptObject, jsonStringify, if_pos h]
  · intro c email e h
    have he := decryptData_error_eq c email e h
    rw [decryptObject, h, he]
  · intro c email t h hp
    have hp2 : jsonParse t = none := Option.isNone_iff_eq_none.mp hp
    rw [decryptObject, h]
    simp only [hp2]

theorem claim6_objectErrors_witness :
    hasNonSer JsValue.cycleV = true ∧
    encryptObject JsValue.cycleV "p" 0 = .error .serializationError ∧
    decryptData (encryptData "@@" "q" 0) "q" = .ok "@@" ∧
    (jsonParse "@@").isNone = true ∧
    decryptObject (encryptData "@@" "q" 0) "q" = .error .parseError :=
  ⟨by decide, claim6_objectErrors.1 _ "p" 0 (by decide), by decide, by decide,
    claim6_objectErrors.2.2.1 _ "q" "@@" (by decide) (by decide)⟩

/-- C7: object round-trip — for every serializable value (whose canonical
JSON serialization is provably non-empty), encrypting the object and then
decrypting it under the passphrase "user@example.com" succeeds and returns a
value structurally equal to the original. -/
theorem claim7_objectRoundTrip (v : JsValue) (salt : Nat)
    (h : hasNonSer v = false) :
    (encryptObject v "user@example.com" salt).bind
      (fun ct => decryptObject ct "user@example.com") = .ok v := by
  rw [encryptObject, jsonStringify, if_neg (by rw [h]; simp)]
  have hjs : String.mk (serVal v) ≠ "" := by
    intro hcontra
    exact serVal_ne_nil v (congrArg String.data hcontra)
  show decryptObject (encryptData (String.mk (serVal v)) "user@example.com" salt)
    "user@example.com" = .ok v
  have hparse : jsonParse (String.mk (serVal v)) = some v := by
    rw [jsonParse]
    show (match parseVal ((serVal v).length + 1) (serVal v) with
      | some (v, []) => some v
      | _ => none) = some v
    have hp := parseVal_ser v ((serVal v).length + 1) [] h
      (by have := sizeV_le_len v; omega) rfl
    rw [List.append_nil] at hp
    rw [hp]
  rw [decryptObject, decryptData_encryptData, if_neg hjs]
  simp only [hparse]

theorem claim7_objectRoundTrip_witness :
    hasNonSer reprObj = false ∧
    (encryptObject reprObj "user@example.com" 0).bind
      (fun ct => decryptObject ct "user@example.com") = .ok reprObj :=
  ⟨by decide, claim7_objectRoundTrip reprObj 0 (by decide)⟩

theorem decryptItemOr_position (email : String) (it : ChecklistItemRow) :
    (decryptItemOr email it).position = it.position := by
  rw [decryptItemOr, decryptItem]
  cases decryptData it.encrypted_data email <;> rfl

theorem exceptMapList_ok {α β : Type} (f : α → Except CodecError β)
    (dflt : α → β) :
    ∀ (l : List α) (bs : List β), exceptMapList f l = .ok bs →
      bs = l.map (fun x => okD (f x) (dflt x)) := by
  intro l
  induction l with
  | nil =>
    intro bs h
    injection h with h2
    rw [← h2]
    rfl
  | cons x xs ih =>
    intro bs h
    rw [exceptMapList] at h
    cases hf : f x with
    | error e => rw [hf] at h; exact absurd h (by simp)
    | ok b =>
      rw [hf] at h
      cases hm : exceptMapList f xs with
      | error e => simp only [hm] at h; exact absurd h (by simp)
      | ok bs2 =>
        simp only [hm] at h
        injection h with h2
        rw [← h2, ih bs2 hm]
        simp [okD, hf]

/-- C8: per-record failure isolation in `fetchTasks` — the listing keeps one
output per fetched row, each output depends only on its own row, an
undecryptable row is replaced by the placeholder (literal description
"[Decryption failed]", empty checklist) with its other fields intact, and a
row that decrypts is returned fully decrypted. -/
theorem claim8_perRecordIsolation (email : String) (rows : List TaskRow) (i : Nat)
    (hi : i < rows.length) :
    (fetchTasks email rows).length = rows.length ∧
    (fetchTasks email rows).get ⟨i, by simpa [fetchTasks] using hi⟩
      = decryptTask email (rows.get ⟨i, hi⟩) ∧
    (taskDecryptFails email (rows.get ⟨i, hi⟩) = true →
      decryptTask email (rows.get ⟨i, hi⟩) = placeholderOf (rows.get ⟨i, hi⟩)) ∧
    (taskDecryptFails email (rows.get ⟨i, hi⟩) = false →
      decryptTask email (rows.get ⟨i, hi⟩) = decryptedOf email (rows.get ⟨i, hi⟩)) := by
  refine ⟨by simp [fetchTasks], by simp [fetchTasks], ?_, ?_⟩
  · intro hfail
    set t := rows.get ⟨i, hi⟩ with ht
    rw [decryptTask]
    cases hd : decryptData t.encrypted_data email with
    | error e => rfl
    | ok description =>
      cases hm : exceptMapList (decryptItem email) (sortByPosition t.checklist_items) with
      | error e => rfl
      | ok checklist =>
        rw [taskDecryptFails, hd] at hfail
        simp only [hm] at hfail
        exact absurd hfail (by simp)
  · intro hok
    set t := rows.get ⟨i, hi⟩ with ht
    rw [decryptTask]
    cases hd : decryptData t.encrypted_data email with
    | error e =>
      rw [taskDecryptFails, hd] at hok
      exact absurd hok (by simp)
    | ok description =>
      cases hm : exceptMapList (decryptItem email) (sortByPosition t.checklist_items) with
      | error e =>
        rw [taskDecryptFails, hd] at hok
        simp only [hm] at hok
        exact absurd hok (by simp)
      | ok checklist =>
        have hchk := exceptMapList_ok (decryptItem email) itemFallback
          (sortByPosition t.checklist_items) checklist hm
        rw [decryptedOf, hd, hchk]
        simp [okD, decryptItemOr]

theorem claim8_perRecordIsolation_witness :
    taskDecryptFails "p" (wit8rows.get ⟨1, by decide⟩) = true ∧
    decryptTask "p" (wit8rows.get ⟨1, by decide⟩)
      = placeholderOf (wit8rows.get ⟨1, by decide⟩) ∧
    taskDecryptFails "p" (wit8rows.get ⟨0, by decide⟩) = false ∧
    decryptTask "p" (wit8rows.get ⟨0, by decide⟩)
      = decryptedOf "p" (wit8rows.get ⟨0, by decide⟩) :=
  ⟨by decide,
    (claim8_perRecordIsolation "p" wit8rows 1 (by decide)).2.2.1 (by decide),
    by decide,
    (claim8_perRecordIsolation "p" wit8rows 0 (by decide)).2.2.2 (by decide)⟩

/-- C9: checklist ordering — the checklist of every task produced by the
listing is sorted in ascending order of the numeric `position` field,
whatever order the store returned the rows in (a successfully decrypted task
carries its decrypted entries sorted; a failed one carries the empty
checklist, which is trivially sorted). -/
theorem claim9_checklistSorted (email : String) (t : TaskRow) :
    List.Pairwise (fun a b => a.position ≤ b.position) (decryptTask email t).checklist := by
  rw [decryptTask]
  cases hd : decryptData t.encrypted_data email with
  | error e => simp [placeholderOf]
  | ok description =>
    cases hm : exceptMapList (decryptItem email) (sortByPosition t.checklist_items) with
    | error e => simp [placeholderOf]
    | ok checklist =>
      show List.Pairwise (fun a b => a.position ≤ b.position) checklist
      have hchk := exceptMapList_ok (decryptItem email) itemFallback
        (sortByPosition t.checklist_items) checklist hm
      rw [hchk, List.pairwise_map]
      have hsorted : List.Pairwise posLe (sortByPosition t.checklist_items) :=
        List.sorted_insertionSort posLe t.checklist_items
      apply hsorted.imp
      intro a b hab
      show (decryptItemOr email a).position ≤ (decryptItemOr email b).position
      rw [decryptItemOr_position, decryptItemOr_position]
      exact hab

/-- C10: completion-timestamp coupling — every payload written by
`toggleTaskStatus` has `completed_at` set (to the current timestamp) exactly
when the new status is completed and null exactly when it is pending; and
the toggle flow (with revert on a failed update) preserves the invariant
"completed_at is non-null iff status is completed". -/
theorem claim10_completionCoupling :
    (∀ current now,
      ((togglePayload current now).2 ≠ none ↔ (togglePayload current now).1 = .completed) ∧
      ((togglePayload current now).2 = none ↔ (togglePayload current now).1 = .pending) ∧
      ((togglePayload current now).1 = .completed → (togglePayload current now).2 = some now)) ∧
    (∀ status completedAt now updateSucceeds,
      (completedAt ≠ none ↔ status = .completed) →
      ((toggleOutcome status completedAt now updateSucceeds).2 ≠ none ↔
        (toggleOutcome status completedAt now updateSucceeds).1 = .completed)) := by
  constructor
  · intro current now
    cases current <;> simp [togglePayload]
  · intro status completedAt now updateSucceeds hinv
    cases updateSucceeds with
    | true =>
      show (togglePayload status now).2 ≠ none ↔ (togglePayload status now).1 = .completed
      cases status <;> simp [togglePayload]
    | false => exact hinv

theorem claim10_completionCoupling_witness :
    ((some "t1" : Option String) ≠ none ↔ TaskStatus.completed = .completed) ∧
    ((toggleOutcome .completed (some "t1") "t2" false).2 ≠ none ↔
      (toggleOutcome .completed (some "t1") "t2" false).1 = .completed) :=
  ⟨by decide,
    claim10_completionCoupling.2 .completed (some "t1") "t2" false (by decide)⟩
